import Mathlib

/-!
Verification of the metagene_analysis counting core (Feature.py, Read.py,
Metagene.py) against its natural-language specification.

The Python code is shallowly embedded:
* Python floats are modelled by exact rationals (`ℚ`); the numbers appearing
  in the claims (halves, small integers) are exactly representable as binary
  floats, so the rational model agrees with the float execution on them.
* Python exceptions (`MetageneError`, `NameError`, `KeyError`, `IndexError`)
  are modelled by `Except PyErr`.
* Python strings are modelled by `String`, except CIGAR strings and sequence
  strings which are modelled by `List Char` (the code iterates over their
  characters).
-/

set_option maxRecDepth 40000
set_option maxHeartbeats 4000000

/-- The exceptions the embedded code can raise. -/
inductive PyErr where
  /-- `MetageneError` raised by the repository's code. -/
  | metageneErr : PyErr
  /-- Python `NameError` (reference to an undefined name). -/
  | nameErr : PyErr
  /-- Python `KeyError` (dictionary lookup with a missing key). -/
  | keyErr : PyErr
  /-- Python `IndexError` (sequence index out of range). -/
  | indexErr : PyErr
deriving DecidableEq, Repr

/-- The inner `while remaining_feature_bin > 0` loop of
`Feature.adjust_to_metagene` (Feature.py lines 337-376), for one feature bin
of value `v`.  State: `rfb` = `remaining_feature_bin`, `mc` = `metagene_count`,
`rmb` = `remaining_metagene_bin`.  Returns the metagene bins emitted during
the loop (in order) together with the final `metagene_count` and
`remaining_metagene_bin`.  The source loop has no explicit bound; `fuel`
bounds the recursion and the lemmas below show it is never exhausted for the
fuel supplied by `adjust_to_metagene`. -/
def adjustLoop (shrink v : ℚ) : Nat → ℚ → ℚ → ℚ → List ℚ × ℚ × ℚ
  | 0, _, mc, rmb => ([], mc, rmb)
  | fuel + 1, rfb, mc, rmb =>
    if 0 < rfb then
      if rfb ≤ rmb then
        -- add entire remaining feature bin to the metagene count
        let mc2 := mc + v * rfb
        let rmb2 := rmb - rfb
        -- remaining_feature_bin = 0, so the loop exits after the
        -- (possible) emission of the completed metagene bin
        if rmb2 = 0 then ([mc2], 0, shrink) else ([], mc2, rmb2)
      else
        -- add the remaining metagene bin worth of the feature bin,
        -- emit the completed metagene bin, reset, and continue the loop
        let mc2 := mc + v * rmb
        let rest := adjustLoop shrink v fuel (rfb - rmb) 0 shrink
        (mc2 :: rest.1, rest.2.1, rest.2.2)
    else ([], mc, rmb)

/-- `Feature.adjust_to_metagene` (Feature.py lines 309-388).
`metagene_length` is `self.metagene_length`; `feature_array` is the argument.
`shrink_factor = len(feature_array) / float(self.metagene_length)`; each
feature bin is distributed by the inner while loop (`adjustLoop`), and after
the outer for loop a final partial metagene bin is appended when fewer than
`metagene_length` bins were emitted. -/
def adjust_to_metagene (metagene_length : Nat) (feature_array : List ℚ) : List ℚ :=
  let shrink : ℚ := (feature_array.length : ℚ) / (metagene_length : ℚ)
  let r := feature_array.foldl
    (fun (acc : List ℚ × ℚ × ℚ) v =>
      let s := adjustLoop shrink v (metagene_length + 2) 1 acc.2.1 acc.2.2
      (acc.1 ++ s.1, s.2.1, s.2.2))
    ([], 0, shrink)
  if r.1.length < metagene_length then r.1 ++ [r.2.1] else r.1

/-! ## CIGAR expansion: `Read.build_positions` (Read.py lines 276-327)

The source tokenizes the CIGAR string with `re.findall('(\d+)', cigar)`
(the maximal digit runs) and `re.split('\d+', cigar)[1:]` (the non-digit
segments between and after the digit runs).  Both are embedded below as
structural recursions over the character list. -/

/-- Maximal digit runs of a character list, accumulator-style
(`re.findall('(\d+)', cigar)`).  `acc` holds the current run reversed. -/
def digitRunsAux : List Char → List Char → List (List Char)
  | acc, [] => if acc = [] then [] else [acc.reverse]
  | acc, c :: cs =>
    if c.isDigit then digitRunsAux (c :: acc) cs
    else if acc = [] then digitRunsAux [] cs
    else acc.reverse :: digitRunsAux [] cs

/-- `re.findall('(\d+)', s)`: the maximal runs of digit characters of `s`. -/
def digitRuns (s : List Char) : List (List Char) := digitRunsAux [] s

/-- Split on maximal digit runs, accumulator-style (`re.split('\d+', s)`).
`acc` holds the current non-digit segment reversed; `inDigits` records
whether the scan is inside a digit run. -/
def splitSegsAux : List Char → Bool → List Char → List (List Char)
  | acc, _, [] => [acc.reverse]
  | acc, inDigits, c :: cs =>
    if c.isDigit then
      if inDigits then splitSegsAux acc true cs
      else acc.reverse :: splitSegsAux [] true cs
    else splitSegsAux (c :: acc) false cs

/-- `re.split('\d+', s)`: the non-digit segments around the maximal digit
runs of `s` (with empty segments at the boundaries, as in Python). -/
def splitSegs (s : List Char) : List (List Char) := splitSegsAux [] false s

/-- Python `int` applied to a run of digit characters. -/
def digitsToNat (run : List Char) : Nat :=
  run.foldl (fun a c => 10 * a + (c.toNat - 48)) 0

/-- The `cigar_codes` dictionary (Read.py lines 296-304): does the operation
emit a position?  The dictionary is keyed by the whole segment string;
`none` models a Python `KeyError` (unknown code or multi-character segment). -/
def cigar_codes (code : List Char) : Option Bool :=
  match code with
  | ['M'] => some true
  | ['I'] => some false
  | ['D'] => some false
  | ['N'] => some false
  | ['S'] => some false
  | ['H'] => some false
  | ['P'] => some false
  | ['='] => some true
  | ['X'] => some true
  | _ => none

/-- The `advance_position` dictionary (Read.py lines 306-314): does the
operation advance the reference coordinate? -/
def advance_position (code : List Char) : Option Bool :=
  match code with
  | ['M'] => some true
  | ['I'] => some false
  | ['D'] => some true
  | ['N'] => some true
  | ['S'] => some false
  | ['H'] => some false
  | ['P'] => some true
  | ['='] => some true
  | ['X'] => some true
  | _ => none

/-- The inner `for j in range(int(nucleotides[i]))` loop of
`Read.build_positions`: iterate `n` times, appending `position` when the
code emits and incrementing `position` when it advances.  Returns the
emitted positions and the final position. -/
def tokenRun (emits adv : Bool) : Nat → Int → List Int × Int
  | 0, pos => ([], pos)
  | n + 1, pos =>
    let rest := tokenRun emits adv n (if adv then pos + 1 else pos)
    ((if emits then [pos] else []) ++ rest.1, rest.2)

/-- The outer `for i in range(len(nucleotides))` loop of
`Read.build_positions`.  The `i`-th iteration reads `codes[i]`; a token
count of `0` never executes the inner loop body, so neither the list index
nor the dictionaries are consulted for it (as in Python). -/
def buildLoop : List Nat → List (List Char) → Int → Except PyErr (List Int)
  | [], _, _ => Except.ok []
  | n :: ns, codes, pos =>
    match n, codes with
    | 0, _ => buildLoop ns codes.tail pos
    | _ + 1, [] => Except.error PyErr.indexErr
    | _ + 1, code :: rest =>
      match cigar_codes code, advance_position code with
      | some emits, some adv =>
        let r := tokenRun emits adv n pos
        Except.map (fun tl => r.1 ++ tl) (buildLoop ns rest r.2)
      | _, _ => Except.error PyErr.keyErr

/-- `Read.build_positions(start, cigar, seq)` (Read.py lines 276-327).
A CIGAR value of `*` is treated as a perfect match of length `len(seq)`
starting at `start` — the source does this for every `seq`, including the
SAM placeholder `"*"` itself (whose length is 1). -/
def build_positions (start : Int) (cigar : List Char) (seq : List Char) :
    Except PyErr (List Int) :=
  if cigar = ['*'] then
    Except.ok ((List.range seq.length).map (fun (i : Nat) => start + (i : Int)))
  else
    buildLoop ((digitRuns cigar).map digitsToNat) (splitSegs cigar).tail start

/-- The decimal digit character for `d` (`d ≤ 9`). -/
def digitChar (d : Nat) : Char :=
  match d with
  | 0 => '0' | 1 => '1' | 2 => '2' | 3 => '3' | 4 => '4'
  | 5 => '5' | 6 => '6' | 7 => '7' | 8 => '8' | _ => '9'

/-- The decimal digit characters of `n`, most significant first. -/
def natDigits (n : Nat) : List Char :=
  if _h : n < 10 then [digitChar n]
  else natDigits (n / 10) ++ [digitChar (n % 10)]
decreasing_by exact Nat.div_lt_self (by omega) (by omega)

/-- Render a list of CIGAR tokens (count, operation code) as the character
list of the CIGAR string. -/
def cigarRender : List (Nat × Char) → List Char
  | [] => []
  | (n, c) :: ts => natDigits n ++ c :: cigarRender ts

/-- The spec's emission table: `M`, `=`, `X` emit one position per base. -/
def opEmits (c : Char) : Bool := c = 'M' || c = '=' || c = 'X'

/-- The spec's advance table: `M`, `=`, `X`, `D`, `N`, `P` advance the
reference coordinate by one per base. -/
def opAdvances (c : Char) : Bool :=
  c = 'M' || c = '=' || c = 'X' || c = 'D' || c = 'N' || c = 'P'

/-- The nine CIGAR operation codes the claim quantifies over. -/
def allowedCigarCodes : List Char := ['M', '=', 'X', 'I', 'S', 'H', 'D', 'N', 'P']

/-- Modelled from the spec: the per-token CIGAR semantics.  Each token
`(n, c)` emits one genomic position and advances the coordinate for each of
its `n` bases when `c` emits, and advances without emitting when `c` only
advances. -/
def cigarSpecPositions : Int → List (Nat × Char) → List Int
  | _, [] => []
  | pos, (n, c) :: ts =>
    (if opEmits c then (List.range n).map (fun (j : Nat) => pos + (j : Int)) else []) ++
      cigarSpecPositions (if opAdvances c then pos + (n : Int) else pos) ts

/-! ## SAM bitwise flag classification: `Read.parse_sam_bitwise_flag`
(Read.py lines 187-273) -/

/-- The six boolean keyword arguments of `Read.parse_sam_bitwise_flag`,
with the source's default values in `defaultFlagPolicy`. -/
structure FlagPolicy where
  count_secondary_alignments : Bool
  count_failed_quality_control : Bool
  count_PCR_optical_duplicate : Bool
  count_supplementary_alignment : Bool
  count_only_start : Bool
  count_only_end : Bool
deriving DecidableEq, Repr

/-- The source's default keyword-argument values (Read.py lines 188-194). -/
def defaultFlagPolicy : FlagPolicy :=
  { count_secondary_alignments := true
    count_failed_quality_control := false
    count_PCR_optical_duplicate := false
    count_supplementary_alignment := true
    count_only_start := false
    count_only_end := false }

/-- `Read.parse_sam_bitwise_flag(flags, ...)` (Read.py lines 187-273).
The branch for the supplementary-alignment bit `0x800` (line 258) reads the
name `count_supplementary_alignments`, which is not defined anywhere (the
parameter is named `count_supplementary_alignment`); since Python's `and`
short-circuits, the `NameError` is raised exactly when the `0x800` test on
its left is true, i.e. whenever that branch is reached with the bit set. -/
def parse_sam_bitwise_flag (flags : Nat) (p : FlagPolicy) :
    Except PyErr (Bool × Bool) :=
  if p.count_only_start && p.count_only_end then Except.error PyErr.metageneErr
  else
    let reverse_complement := !(flags &&& 0x10 == 0)
    if flags &&& 0x4 == 0x4 then Except.ok (false, reverse_complement)
    else if (flags &&& 0x100 == 0x100) && !p.count_secondary_alignments then
      Except.ok (false, reverse_complement)
    else if (flags &&& 0x200 == 0x200) && !p.count_failed_quality_control then
      Except.ok (false, reverse_complement)
    else if (flags &&& 0x400 == 0x400) && !p.count_PCR_optical_duplicate then
      Except.ok (false, reverse_complement)
    else if flags &&& 0x800 == 0x800 then
      -- line 258 evaluates the undefined name `count_supplementary_alignments`
      Except.error PyErr.nameErr
    else if (p.count_only_start || p.count_only_end) && (flags &&& 0x1 == 0x1) then
      if p.count_only_start && (flags &&& 0x40 == 0x40) then
        Except.ok (true, reverse_complement)
      else if p.count_only_end && (flags &&& 0x80 == 0x80) then
        Except.ok (true, reverse_complement)
      else Except.ok (false, reverse_complement)
    else Except.ok (true, reverse_complement)

/-! ## `Read.__init__` (Read.py lines 63-96) -/

/-- The attributes of a `Read` object. -/
structure PyRead where
  chromosome : String
  strand : String
  position_array : List Int
  abundance : Int
  mappings : Int
  has_mappings : Bool
deriving DecidableEq, Repr

/-- `Read.__init__(chromosome, strand, abundance, mappings, positions)`
(Read.py lines 63-96).  `mappings = none` models the string `"Unknown"`.
Abundance and mappings arrive as integers (the callers pass `int` values,
so the `int(...)` round-trip checks of the source are identities here).
The source accepts any `abundance >= 0` (line 78) even though its error
message demands a positive integer, and requires `mappings > 0`. -/
def readInit (chromosome strand : String) (abundance : Int)
    (mappings : Option Int) (positions : List Int) : Except PyErr PyRead :=
  let strand2 := if strand ≠ "+" ∧ strand ≠ "-" then "." else strand
  let position_array := if strand2 = "-" then positions.reverse else positions
  if abundance ≥ 0 then
    match mappings with
    | none =>
      Except.ok { chromosome := chromosome, strand := strand2,
                  position_array := position_array, abundance := abundance,
                  mappings := 1, has_mappings := false }
    | some m =>
      if m > 0 then
        Except.ok { chromosome := chromosome, strand := strand2,
                    position_array := position_array, abundance := abundance,
                    mappings := m, has_mappings := true }
      else Except.error PyErr.metageneErr
  else Except.error PyErr.metageneErr

/-! ## `Feature.__init__` (Feature.py lines 104-190) and
`Feature.count_read` (Feature.py lines 391-448) -/

/-- The run-level `Metagene` shape (Metagene.py lines 65-84): interval and
padding lengths, validated to `interval ≥ 1`, `paddings ≥ 0` at
construction (we carry the validated values as naturals). -/
structure Metagene where
  feature_interval : Nat
  padding_up : Nat
  padding_down : Nat
deriving DecidableEq, Repr

/-- The attributes of a `Feature` object.  `counts_array` is the Python
dict as an insertion-ordered association list. -/
structure PyFeature where
  name : String
  chromosome : String
  strand : String
  feature_interval : Int
  padding_up : Nat
  padding_down : Nat
  metagene_length : Nat
  counts_array : List (String × List ℚ)
  position_array : List Int
deriving DecidableEq, Repr

/-- Python `range(a, b + 1)` as a list of integers (empty when `b < a`). -/
def intRange (a b : Int) : List Int :=
  (List.range (b + 1 - a).toNat).map (fun (i : Nat) => a + (i : Int))

/-- `Feature.__init__(count_method, metagene_object, name, chromosome,
start, end, strand, gap_counting)` (Feature.py lines 104-190).  The
chromosome-name conversion and the `confirm_integer` bound checks against
`Read.chromosome_sizes` (lines 115-119) depend on run-time configuration
read from the alignment file and are omitted; the `confirm_integer`
`minimum=1` check performed by `Metagene.__init__` on the computed interval
is kept (`interval < 1` raises `MetageneError`). -/
def featureInit (count_method : String) (mg : Metagene)
    (name chromosome : String) (start0 end0 : Int) (strand : String)
    (gap_counting : Bool) : Except PyErr PyFeature :=
  let interval : Int := if count_method = "all" then end0 - start0 + 1 else 1
  if interval < 1 then Except.error PyErr.metageneErr
  else
    let len : Nat := mg.padding_up + interval.toNat + mg.padding_down
    let strand2 := if strand ≠ "+" ∧ strand ≠ "-" then "." else strand
    let orientation := if strand2 = "." then ["unstranded"] else ["sense", "antisense"]
    let gap_counts := if gap_counting then ["ungapped", "gapped"] else ["allreads"]
    let counts := orientation.flatMap
      (fun o => gap_counts.map (fun g => (o ++ ":" ++ g, List.replicate len (0 : ℚ))))
    let positions :=
      if strand2 = "-" then
        -- chromosome start = feature end, chromosome end = feature start
        let se : Int × Int :=
          if count_method = "start" then (end0, end0)
          else if count_method = "end" then (start0, start0)
          else (start0, end0)
        (intRange (se.1 - mg.padding_down) (se.2 + mg.padding_up)).reverse
      else
        let se : Int × Int :=
          if count_method = "start" then (start0, start0)
          else if count_method = "end" then (end0, end0)
          else (start0, end0)
        intRange (se.1 - mg.padding_up) (se.2 + mg.padding_down)
    Except.ok { name := name, chromosome := chromosome, strand := strand2,
                feature_interval := interval, padding_up := mg.padding_up,
                padding_down := mg.padding_down,
                metagene_length := mg.feature_interval,
                counts_array := counts, position_array := positions }

/-- One `counts_array[subset][index] += weight` update (Feature.py line
447).  A missing `subset` key is a Python `KeyError`; an out-of-range index
would be an `IndexError` (it cannot occur for constructor-built features,
whose counts arrays have the same length as `position_array`). -/
def updateCounts : List (String × List ℚ) → String → Nat → ℚ →
    Except PyErr (List (String × List ℚ))
  | [], _, _, _ => Except.error PyErr.keyErr
  | (k, arr) :: rest, subset, idx, w =>
    if k = subset then
      if idx < arr.length then
        Except.ok ((k, arr.set idx (arr.getD idx 0 + w)) :: rest)
      else Except.error PyErr.indexErr
    else Except.map (fun tl => (k, arr) :: tl) (updateCounts rest subset idx w)

/-- The `for p in positions_to_count` loop of `Feature.count_read`
(Feature.py lines 444-447): each position present in `posArr` adds `w` at
its index. -/
def accumulatePositions (posArr : List Int) (subset : String) (w : ℚ) :
    List Int → List (String × List ℚ) → Except PyErr (List (String × List ℚ))
  | [], ca => Except.ok ca
  | p :: ps, ca =>
    if p ∈ posArr then
      match updateCounts ca subset (posArr.indexOf p) w with
      | Except.error e => Except.error e
      | Except.ok ca2 => accumulatePositions posArr subset w ps ca2
    else accumulatePositions posArr subset w ps ca

/-- `Feature.count_read(read_object, count_method, count_gaps,
count_partial_reads)` (Feature.py lines 391-448).  Python's early
`return False` paths yield the unchanged feature; `self` mutation is
modelled by returning the updated feature. -/
def count_read (f : PyFeature) (r : PyRead) (count_method : String)
    (count_gaps countPartialReads : Bool) : Except PyErr PyFeature :=
  -- determine orientation (and if countable), lines 402-411
  let subsetRes : Except PyErr String :=
    if f.strand = "." then Except.ok "unstranded"
    else if r.strand ≠ "." then
      Except.ok (if f.strand = r.strand then "sense" else "antisense")
    else Except.error PyErr.metageneErr
  match subsetRes with
  | Except.error e => Except.error e
  | Except.ok subset0 =>
    -- determine gap status, lines 413-421
    let gapRes : Except PyErr String :=
      if count_gaps then
        match r.position_array.head?, r.position_array.getLast? with
        | some pf, some pl =>
          Except.ok (if (pf - pl).natAbs + 1 > r.position_array.length
                     then subset0 ++ ":gapped" else subset0 ++ ":ungapped")
        | _, _ => Except.error PyErr.indexErr
      else Except.ok (subset0 ++ ":allreads")
    match gapRes with
    | Except.error e => Except.error e
    | Except.ok subset =>
      -- containment check, lines 423-428
      let containRes : Except PyErr Bool :=
        if countPartialReads then Except.ok true
        else
          match r.position_array.head?, r.position_array.getLast? with
          | some pf, some pl =>
            Except.ok (decide (pf ∈ f.position_array) && decide (pl ∈ f.position_array))
          | _, _ => Except.error PyErr.indexErr
      match containRes with
      | Except.error e => Except.error e
      | Except.ok false => Except.ok f
      | Except.ok true =>
        -- can count if they are on the same chromosome, lines 430-447
        if f.chromosome = r.chromosome then
          let ptcRes : Except PyErr (List Int) :=
            if count_method = "start" then
              match r.position_array.head? with
              | some p => Except.ok [p]
              | none => Except.error PyErr.indexErr
            else if count_method = "end" then
              match r.position_array.getLast? with
              | some p => Except.ok [p]
              | none => Except.error PyErr.indexErr
            else if count_method = "all" then Except.ok r.position_array
            else Except.error PyErr.metageneErr
          match ptcRes with
          | Except.error e => Except.error e
          | Except.ok ptc =>
            match accumulatePositions f.position_array subset
                ((r.abundance : ℚ) / (r.mappings : ℚ)) ptc f.counts_array with
            | Except.error e => Except.error e
            | Except.ok ca => Except.ok { f with counts_array := ca }
        else Except.ok f

/-! ## Invariants of the resampling loop -/

/-- One-step unfolding of `adjustLoop` at positive fuel (the `let`
bindings of the definition inlined). -/
theorem adjustLoop_succ (shrink v : ℚ) (fuel : Nat) (rfb mc rmb : ℚ) :
    adjustLoop shrink v (fuel + 1) rfb mc rmb =
      if 0 < rfb then
        if rfb ≤ rmb then
          if rmb - rfb = 0 then ([mc + v * rfb], 0, shrink)
          else ([], mc + v * rfb, rmb - rfb)
        else
          ((mc + v * rmb) :: (adjustLoop shrink v fuel (rfb - rmb) 0 shrink).1,
            (adjustLoop shrink v fuel (rfb - rmb) 0 shrink).2.1,
            (adjustLoop shrink v fuel (rfb - rmb) 0 shrink).2.2)
      else ([], mc, rmb) := rfl

/-- Invariants of one pass of the inner while loop: signal is conserved
(`out.sum + mc2 = mc + v * rfb`), capacity is conserved
(`rmb2 + rfb = rmb + out.length * shrink`), the remaining metagene bin
stays in `(0, shrink]`, and a full remaining bin means the running count
was just reset to `0`.  The fuel hypothesis `rfb ≤ rmb + fuel * shrink`
guarantees the fuel is never exhausted. -/
theorem adjustLoop_spec (shrink v : ℚ) (fuel : Nat)
    (rfb mc rmb : ℚ) (hs : 0 < shrink) (hrfb : 0 < rfb) (hrmb : 0 < rmb)
    (hle : rmb ≤ shrink) (hmc : rmb = shrink → mc = 0)
    (hfuel : rfb ≤ rmb + (fuel : ℚ) * shrink) (out : List ℚ) (mc2 rmb2 : ℚ)
    (heq : adjustLoop shrink v (fuel + 1) rfb mc rmb = (out, mc2, rmb2)) :
    out.sum + mc2 = mc + v * rfb ∧
    rmb2 + rfb = rmb + (out.length : ℚ) * shrink ∧
    0 < rmb2 ∧ rmb2 ≤ shrink ∧ (rmb2 = shrink → mc2 = 0) := by
  induction fuel generalizing rfb mc rmb out mc2 rmb2 with
  | zero =>
    simp only [Nat.cast_zero, zero_mul, add_zero] at hfuel
    rw [adjustLoop_succ, if_pos hrfb, if_pos hfuel] at heq
    by_cases hz : rmb - rfb = 0
    · rw [if_pos hz] at heq
      simp only [Prod.mk.injEq] at heq
      obtain ⟨h1, h2, h3⟩ := heq
      subst h1; subst h2; subst h3
      have hrr : rmb = rfb := by linarith
      refine ⟨by simp, ?_, hs, le_refl _, fun _ => rfl⟩
      simp only [List.length_cons, List.length_nil, Nat.cast_one]
      rw [hrr]; ring
    · rw [if_neg hz] at heq
      simp only [Prod.mk.injEq] at heq
      obtain ⟨h1, h2, h3⟩ := heq
      subst h1; subst h2; subst h3
      have hpos : 0 < rmb - rfb := lt_of_le_of_ne (by linarith) (Ne.symm hz)
      refine ⟨by simp, ?_, hpos, by linarith, fun h => ?_⟩
      · simp only [List.length_nil, Nat.cast_zero, zero_mul, add_zero]; ring
      · exact absurd h (ne_of_lt (by linarith))
  | succ fuel ih =>
    rw [adjustLoop_succ, if_pos hrfb] at heq
    by_cases hcase : rfb ≤ rmb
    · rw [if_pos hcase] at heq
      by_cases hz : rmb - rfb = 0
      · rw [if_pos hz] at heq
        simp only [Prod.mk.injEq] at heq
        obtain ⟨h1, h2, h3⟩ := heq
        subst h1; subst h2; subst h3
        have hrr : rmb = rfb := by linarith
        refine ⟨by simp, ?_, hs, le_refl _, fun _ => rfl⟩
        simp only [List.length_cons, List.length_nil, Nat.cast_one]
        rw [hrr]; ring
      · rw [if_neg hz] at heq
        simp only [Prod.mk.injEq] at heq
        obtain ⟨h1, h2, h3⟩ := heq
        subst h1; subst h2; subst h3
        have hpos : 0 < rmb - rfb := lt_of_le_of_ne (by linarith) (Ne.symm hz)
        refine ⟨by simp, ?_, hpos, by linarith, fun h => ?_⟩
        · simp only [List.length_nil, Nat.cast_zero, zero_mul, add_zero]; ring
        · exact absurd h (ne_of_lt (by linarith))
    · rw [if_neg hcase] at heq
      push_neg at hcase
      have hrec := ih (rfb - rmb) 0 shrink (by linarith) hs (le_refl _)
        (fun _ => rfl)
        (by push_cast at hfuel ⊢; linarith)
        (adjustLoop shrink v (fuel + 1) (rfb - rmb) 0 shrink).1
        (adjustLoop shrink v (fuel + 1) (rfb - rmb) 0 shrink).2.1
        (adjustLoop shrink v (fuel + 1) (rfb - rmb) 0 shrink).2.2
        rfl
      obtain ⟨ha, hb, hc, hd, he⟩ := hrec
      simp only [Prod.mk.injEq] at heq
      obtain ⟨h1, h2, h3⟩ := heq
      subst h1; subst h2; subst h3
      refine ⟨?_, ?_, hc, hd, he⟩
      · simp only [List.sum_cons]
        linarith
      · simp only [List.length_cons]
        push_cast
        linarith

/-- Invariant of the outer `for bin in feature_array` fold of
`adjust_to_metagene`. -/
theorem adjustFold_spec (shrink : ℚ) (tgt : Nat) (hs : 0 < shrink)
    (hfuel : 1 ≤ ((tgt : ℚ) + 1) * shrink) :
    ∀ (l : List ℚ) (acc : List ℚ × ℚ × ℚ),
    0 < acc.2.2 → acc.2.2 ≤ shrink → (acc.2.2 = shrink → acc.2.1 = 0) →
    (l.foldl (fun (acc : List ℚ × ℚ × ℚ) v =>
        let s := adjustLoop shrink v (tgt + 2) 1 acc.2.1 acc.2.2
        (acc.1 ++ s.1, s.2.1, s.2.2)) acc).1.sum
      + (l.foldl (fun (acc : List ℚ × ℚ × ℚ) v =>
        let s := adjustLoop shrink v (tgt + 2) 1 acc.2.1 acc.2.2
        (acc.1 ++ s.1, s.2.1, s.2.2)) acc).2.1
      = acc.1.sum + acc.2.1 + l.sum ∧
    (l.foldl (fun (acc : List ℚ × ℚ × ℚ) v =>
        let s := adjustLoop shrink v (tgt + 2) 1 acc.2.1 acc.2.2
        (acc.1 ++ s.1, s.2.1, s.2.2)) acc).2.2
      + (acc.1.length : ℚ) * shrink + (l.length : ℚ)
      = acc.2.2 + ((l.foldl (fun (acc : List ℚ × ℚ × ℚ) v =>
        let s := adjustLoop shrink v (tgt + 2) 1 acc.2.1 acc.2.2
        (acc.1 ++ s.1, s.2.1, s.2.2)) acc).1.length : ℚ) * shrink ∧
    0 < (l.foldl (fun (acc : List ℚ × ℚ × ℚ) v =>
        let s := adjustLoop shrink v (tgt + 2) 1 acc.2.1 acc.2.2
        (acc.1 ++ s.1, s.2.1, s.2.2)) acc).2.2 ∧
    (l.foldl (fun (acc : List ℚ × ℚ × ℚ) v =>
        let s := adjustLoop shrink v (tgt + 2) 1 acc.2.1 acc.2.2
        (acc.1 ++ s.1, s.2.1, s.2.2)) acc).2.2 ≤ shrink ∧
    ((l.foldl (fun (acc : List ℚ × ℚ × ℚ) v =>
        let s := adjustLoop shrink v (tgt + 2) 1 acc.2.1 acc.2.2
        (acc.1 ++ s.1, s.2.1, s.2.2)) acc).2.2 = shrink →
      (l.foldl (fun (acc : List ℚ × ℚ × ℚ) v =>
        let s := adjustLoop shrink v (tgt + 2) 1 acc.2.1 acc.2.2
        (acc.1 ++ s.1, s.2.1, s.2.2)) acc).2.1 = 0) := by
  intro l
  induction l with
  | nil =>
    intro acc h1 h2 h3
    refine ⟨by simp, by simp, h1, h2, h3⟩
  | cons v l ih =>
    intro acc h1 h2 h3
    have hstep := adjustLoop_spec shrink v (tgt + 1) 1 acc.2.1 acc.2.2 hs
      one_pos h1 h2 h3
      (by push_cast; nlinarith)
      (adjustLoop shrink v (tgt + 2) 1 acc.2.1 acc.2.2).1
      (adjustLoop shrink v (tgt + 2) 1 acc.2.1 acc.2.2).2.1
      (adjustLoop shrink v (tgt + 2) 1 acc.2.1 acc.2.2).2.2
      rfl
    obtain ⟨ha, hb, hc, hd, he⟩ := hstep
    have := ih (acc.1 ++ (adjustLoop shrink v (tgt + 2) 1 acc.2.1 acc.2.2).1,
                (adjustLoop shrink v (tgt + 2) 1 acc.2.1 acc.2.2).2.1,
                (adjustLoop shrink v (tgt + 2) 1 acc.2.1 acc.2.2).2.2)
      hc hd he
    obtain ⟨i1, i2, i3, i4, i5⟩ := this
    simp only [List.foldl_cons]
    simp only [List.sum_append, List.length_append, List.sum_cons,
      List.length_cons] at i1 i2 ⊢
    refine ⟨by linarith, ?_, i3, i4, i5⟩
    push_cast at i2 ⊢
    linarith

/-- C1.  For every non-empty input list and every `target_length ≥ 1`,
`Feature.adjust_to_metagene` returns a list of length exactly
`target_length` whose sum equals the sum of the input exactly (in the
rational model of the float arithmetic), hence in particular within the
claimed `1e-6` tolerance. -/
theorem adjust_to_metagene_conserves (values : List ℚ) (target : Nat)
    (hv : values ≠ []) (ht : 1 ≤ target) :
    (adjust_to_metagene target values).length = target ∧
    (adjust_to_metagene target values).sum = values.sum ∧
    |(adjust_to_metagene target values).sum - values.sum| ≤ 1 / 1000000 := by
  have hn : 0 < values.length := List.length_pos.mpr hv
  have htq : (0 : ℚ) < (target : ℚ) := by exact_mod_cast Nat.lt_of_lt_of_le Nat.zero_lt_one ht
  have hnq : (0 : ℚ) < (values.length : ℚ) := by exact_mod_cast hn
  set shrink : ℚ := (values.length : ℚ) / (target : ℚ) with hsh
  have hs : 0 < shrink := div_pos hnq htq
  have hts : (target : ℚ) * shrink = (values.length : ℚ) := by
    rw [hsh]; field_simp
  have hone : (1 : ℚ) ≤ (values.length : ℚ) := by exact_mod_cast hn
  have hfuel : 1 ≤ ((target : ℚ) + 1) * shrink := by
    have hx : ((target : ℚ) + 1) * shrink = (target : ℚ) * shrink + shrink := by ring
    rw [hx, hts]; linarith
  obtain ⟨h1, h2, h3, h4, h5⟩ := adjustFold_spec shrink target hs hfuel values
    ([], 0, shrink) hs (le_refl _) (fun _ => rfl)
  set F := values.foldl (fun (acc : List ℚ × ℚ × ℚ) v =>
      let s := adjustLoop shrink v (target + 2) 1 acc.2.1 acc.2.2
      (acc.1 ++ s.1, s.2.1, s.2.2)) ([], 0, shrink) with hF
  dsimp only at h1 h2 h3 h4 h5
  simp only [List.sum_nil, List.length_nil, Nat.cast_zero, zero_mul,
    zero_add, add_zero] at h1 h2
  have e1 : (F.1.length : ℚ) * shrink ≤ (target : ℚ) * shrink := by linarith
  have e2 : ((target : ℚ) - 1) * shrink < (F.1.length : ℚ) * shrink := by
    have hexp : ((target : ℚ) - 1) * shrink = (target : ℚ) * shrink - shrink := by ring
    rw [hexp, hts]; linarith
  have hkle : F.1.length ≤ target := by
    exact_mod_cast (mul_le_mul_right hs).mp e1
  have hkgt : (target : ℚ) - 1 < (F.1.length : ℚ) := (mul_lt_mul_right hs).mp e2
  have hklen : F.1.length = target := by
    have : (target : ℚ) < (F.1.length : ℚ) + 1 := by linarith
    have h' : target < F.1.length + 1 := by exact_mod_cast this
    omega
  have hrmb : F.2.2 = shrink := by
    rw [hklen] at h2
    linarith
  have hmc0 : F.2.1 = 0 := h5 hrmb
  have hsum : F.1.sum = values.sum := by linarith
  have hval : adjust_to_metagene target values = F.1 := by
    simp only [adjust_to_metagene]
    rw [← hsh, ← hF, if_neg (by omega)]
  rw [hval, hklen, hsum]
  refine ⟨rfl, rfl, ?_⟩
  rw [sub_self, abs_zero]
  norm_num

/-- C1 witness: the theorem instantiated at `values = [1, 2, 3]`,
`target_length = 2`. -/
theorem adjust_to_metagene_conserves_witness :
    ([(1 : ℚ), 2, 3] ≠ []) ∧ 1 ≤ 2 ∧
    ((adjust_to_metagene 2 [1, 2, 3]).length = 2 ∧
     (adjust_to_metagene 2 [1, 2, 3]).sum = ([(1 : ℚ), 2, 3]).sum ∧
     |(adjust_to_metagene 2 [1, 2, 3]).sum - ([(1 : ℚ), 2, 3]).sum| ≤ 1 / 1000000) :=
  ⟨by simp, by norm_num,
    adjust_to_metagene_conserves [1, 2, 3] 2 (by simp) (by norm_num)⟩

/-! ## CIGAR tokenizer lemmas -/

/-- Digit characters are digits. -/
theorem digitChar_isDigit (d : Nat) : (digitChar d).isDigit = true := by
  rcases d with _ | _ | _ | _ | _ | _ | _ | _ | _ | d <;> rfl

/-- Code point of a digit character below ten. -/
theorem digitChar_toNat (d : Nat) (h : d < 10) : (digitChar d).toNat = 48 + d := by
  interval_cases d <;> rfl

/-- `natDigits` never returns the empty list. -/
theorem natDigits_ne_nil (n : Nat) : natDigits n ≠ [] := by
  rw [natDigits.eq_def]
  split
  · simp
  · simp

/-- Every character of `natDigits n` is a digit. -/
theorem natDigits_isDigit (n : Nat) : ∀ c ∈ natDigits n, c.isDigit = true := by
  induction n using Nat.strong_induction_on with
  | _ n ih =>
    rw [natDigits.eq_def]
    split
    · intro c hc
      simp only [List.mem_singleton] at hc
      subst hc
      exact digitChar_isDigit n
    · intro c hc
      rename_i h
      rcases List.mem_append.mp hc with hm | hm
      · exact ih (n / 10) (Nat.div_lt_self (by omega) (by omega)) c hm
      · simp only [List.mem_singleton] at hm
        subst hm
        exact digitChar_isDigit (n % 10)

/-- `digitsToNat` inverts `natDigits`. -/
theorem digitsToNat_natDigits (n : Nat) : digitsToNat (natDigits n) = n := by
  induction n using Nat.strong_induction_on with
  | _ n ih =>
    rw [natDigits.eq_def]
    split
    · rename_i h
      simp only [digitsToNat, List.foldl_cons, List.foldl_nil]
      rw [digitChar_toNat n h]
      omega
    · rename_i h
      have hrec := ih (n / 10) (Nat.div_lt_self (by omega) (by omega))
      simp only [digitsToNat, List.foldl_append, List.foldl_cons, List.foldl_nil] at hrec ⊢
      rw [hrec, digitChar_toNat (n % 10) (Nat.mod_lt n (by omega))]
      omega

/-- Scanning a block of digits extends the current run. -/
theorem digitRunsAux_digits (ds : List Char) (hds : ∀ c ∈ ds, c.isDigit = true) :
    ∀ acc rest, digitRunsAux acc (ds ++ rest) = digitRunsAux (ds.reverse ++ acc) rest := by
  induction ds with
  | nil => intro acc rest; simp
  | cons d ds ih =>
    intro acc rest
    have hd : d.isDigit = true := hds d (by simp)
    have hds' : ∀ c ∈ ds, c.isDigit = true := fun c hc => hds c (by simp [hc])
    simp only [List.cons_append, digitRunsAux, hd, if_true, List.append_eq]
    rw [ih hds' (d :: acc) rest]
    simp

/-- Scanning a non-digit with a non-empty current run emits the run. -/
theorem digitRunsAux_nondigit (c : Char) (hc : c.isDigit = false)
    (acc rest : List Char) (hacc : acc ≠ []) :
    digitRunsAux acc (c :: rest) = acc.reverse :: digitRunsAux [] rest := by
  simp only [digitRunsAux, hc, Bool.false_eq_true, if_false, hacc, if_neg]

/-- `re.findall('(\d+)', ...)` on a rendered token list returns exactly the
digit runs of the token counts. -/
theorem digitRuns_render (ts : List (Nat × Char))
    (h : ∀ t ∈ ts, (t.2).isDigit = false) :
    digitRuns (cigarRender ts) = ts.map (fun t => natDigits t.1) := by
  induction ts with
  | nil => rfl
  | cons t ts ih =>
    obtain ⟨n, c⟩ := t
    have hc : c.isDigit = false := h (n, c) (by simp)
    have h' : ∀ t ∈ ts, (t.2).isDigit = false := fun t ht => h t (by simp [ht])
    simp only [cigarRender, List.map_cons]
    unfold digitRuns
    rw [digitRunsAux_digits (natDigits n) (natDigits_isDigit n) [] (c :: cigarRender ts)]
    rw [List.append_nil]
    rw [digitRunsAux_nondigit c hc _ _ (by simp [natDigits_ne_nil n])]
    rw [List.reverse_reverse]
    exact congrArg _ (ih h')

/-- Inside a digit run, further digits are skipped by the splitter. -/
theorem splitSegsAux_digits (ds : List Char) (hds : ∀ c ∈ ds, c.isDigit = true) :
    ∀ acc rest, splitSegsAux acc true (ds ++ rest) = splitSegsAux acc true rest := by
  induction ds with
  | nil => intro acc rest; simp
  | cons d ds ih =>
    intro acc rest
    have hd : d.isDigit = true := hds d (by simp)
    have hds' : ∀ c ∈ ds, c.isDigit = true := fun c hc => hds c (by simp [hc])
    simp only [List.cons_append, splitSegsAux, hd, if_true, List.append_eq]
    exact ih hds' acc rest

/-- `re.split('\d+', ...)` on a rendered token list: the segment scanned so
far, followed by one singleton segment per operation code. -/
theorem splitSegsAux_render (ts : List (Nat × Char))
    (h : ∀ t ∈ ts, (t.2).isDigit = false) :
    ∀ acc, splitSegsAux acc false (cigarRender ts) =
      acc.reverse :: ts.map (fun t => [t.2]) := by
  induction ts with
  | nil => intro acc; rfl
  | cons t ts ih =>
    obtain ⟨n, c⟩ := t
    have hc : c.isDigit = false := h (n, c) (by simp)
    have h' : ∀ t ∈ ts, (t.2).isDigit = false := fun t ht => h t (by simp [ht])
    intro acc
    obtain ⟨d, ds, hd⟩ := List.exists_cons_of_ne_nil (natDigits_ne_nil n)
    have hdd : d.isDigit = true := by
      have := natDigits_isDigit n
      rw [hd] at this
      exact this d (by simp)
    have hds : ∀ x ∈ ds, x.isDigit = true := by
      have := natDigits_isDigit n
      rw [hd] at this
      exact fun x hx => this x (by simp [hx])
    simp only [cigarRender, hd, List.cons_append, List.map_cons]
    simp only [splitSegsAux, hdd, if_true]
    rw [splitSegsAux_digits ds hds [] (c :: cigarRender ts)]
    simp only [splitSegsAux, hc, Bool.false_eq_true, if_false]
    rw [ih h' [c]]
    rfl

/-- Emitting and advancing run (`M`, `=`, `X`). -/
theorem tokenRun_true_true (n : Nat) (pos : Int) :
    tokenRun true true n pos =
      ((List.range n).map (fun (j : Nat) => pos + (j : Int)), pos + (n : Int)) := by
  induction n generalizing pos with
  | zero => simp [tokenRun]
  | succ n ih =>
    have hstep : tokenRun true true (n + 1) pos =
        ([pos] ++ (tokenRun true true n (pos + 1)).1,
          (tokenRun true true n (pos + 1)).2) := rfl
    rw [hstep, ih (pos + 1)]
    have hmap : ((fun (j : Nat) => pos + (j : Int)) ∘ Nat.succ) =
        fun (j : Nat) => pos + 1 + (j : Int) := by
      funext j
      simp only [Function.comp_apply]
      push_cast
      ring
    rw [List.range_succ_eq_map, List.map_cons, List.map_map, hmap]
    simp only [Prod.mk.injEq]
    exact ⟨by simp, by push_cast; ring⟩

/-- Advance-only run (`D`, `N`, `P`). -/
theorem tokenRun_false_true (n : Nat) (pos : Int) :
    tokenRun false true n pos = ([], pos + (n : Int)) := by
  induction n generalizing pos with
  | zero => simp [tokenRun]
  | succ n ih =>
    have hstep : tokenRun false true (n + 1) pos =
        (([] : List Int) ++ (tokenRun false true n (pos + 1)).1,
          (tokenRun false true n (pos + 1)).2) := rfl
    rw [hstep, ih (pos + 1)]
    simp only [List.nil_append, Prod.mk.injEq]
    constructor
    · trivial
    · push_cast
      ring

/-- Silent run (`I`, `S`, `H`). -/
theorem tokenRun_false_false (n : Nat) (pos : Int) :
    tokenRun false false n pos = ([], pos) := by
  induction n generalizing pos with
  | zero => simp [tokenRun]
  | succ n ih =>
    have hstep : tokenRun false false (n + 1) pos =
        (([] : List Int) ++ (tokenRun false false n pos).1,
          (tokenRun false false n pos).2) := rfl
    rw [hstep, ih]
    simp

/-- The dictionaries of `build_positions` agree with the spec's
emit/advance tables on the nine known codes. -/
theorem cigar_tables (c : Char) (hc : c ∈ allowedCigarCodes) :
    cigar_codes [c] = some (opEmits c) ∧
    advance_position [c] = some (opAdvances c) ∧
    c.isDigit = false := by
  fin_cases hc <;> exact ⟨rfl, rfl, rfl⟩

/-- One token's inner loop, expressed through the spec tables. -/
theorem tokenRun_op (c : Char) (hc : c ∈ allowedCigarCodes) (n : Nat) (pos : Int) :
    tokenRun (opEmits c) (opAdvances c) n pos =
      ((if opEmits c then (List.range n).map (fun (j : Nat) => pos + (j : Int)) else []),
        if opAdvances c then pos + (n : Int) else pos) := by
  fin_cases hc <;>
    first
      | exact tokenRun_true_true n pos
      | exact tokenRun_false_true n pos
      | exact tokenRun_false_false n pos

/-- The token loop of `build_positions` computes the spec semantics. -/
theorem buildLoop_sem (ts : List (Nat × Char))
    (h : ∀ t ∈ ts, 1 ≤ t.1 ∧ t.2 ∈ allowedCigarCodes) :
    ∀ pos, buildLoop (ts.map Prod.fst) (ts.map (fun t => [t.2])) pos =
      Except.ok (cigarSpecPositions pos ts) := by
  induction ts with
  | nil => intro pos; rfl
  | cons t ts ih =>
    obtain ⟨n, c⟩ := t
    obtain ⟨hn, hc⟩ := h (n, c) (by simp)
    have h' : ∀ t ∈ ts, 1 ≤ t.1 ∧ t.2 ∈ allowedCigarCodes :=
      fun t ht => h t (by simp [ht])
    obtain ⟨m, rfl⟩ : ∃ m, n = m + 1 := ⟨n - 1, by omega⟩
    intro pos
    obtain ⟨hcc, hap, _⟩ := cigar_tables c hc
    simp only [List.map_cons, buildLoop, hcc, hap]
    rw [tokenRun_op c hc (m + 1) pos]
    rw [ih h']
    simp only [Except.map, cigarSpecPositions]

/-- C3.  For every start, well-formed CIGAR string over the nine codes,
and sequence, `Read.build_positions` realizes the spec's per-run table:
`M`/`=`/`X` emit one genomic position and advance the coordinate per base,
`I`/`S`/`H` neither emit nor advance, `D`/`N`/`P` advance without
emitting, starting from the 1-based `start`; and the two documented
examples hold. -/
theorem build_positions_semantics (start : Int) (ts : List (Nat × Char))
    (seq : List Char)
    (h : ∀ t ∈ ts, 1 ≤ t.1 ∧ t.2 ∈ allowedCigarCodes) :
    build_positions start (cigarRender ts) seq =
      Except.ok (cigarSpecPositions start ts) ∧
    build_positions 1 ['1', '0', 'M'] ['*'] =
      Except.ok [1, 2, 3, 4, 5, 6, 7, 8, 9, 10] ∧
    build_positions 1 ['5', 'M', '3', 'N', '5', 'M'] ['*'] =
      Except.ok [1, 2, 3, 4, 5, 9, 10, 11, 12, 13] := by
  refine ⟨?_, by rfl, by rfl⟩
  have hnd : ∀ t ∈ ts, (t.2).isDigit = false :=
    fun t ht => (cigar_tables t.2 (h t ht).2).2.2
  have hstar : cigarRender ts ≠ ['*'] := by
    cases ts with
    | nil => simp [cigarRender]
    | cons t ts =>
      obtain ⟨n, c⟩ := t
      obtain ⟨d, ds, hd⟩ := List.exists_cons_of_ne_nil (natDigits_ne_nil n)
      have hdd : d.isDigit = true := by
        have hall := natDigits_isDigit n
        rw [hd] at hall
        exact hall d (by simp)
      intro heq
      simp only [cigarRender, hd, List.cons_append] at heq
      obtain ⟨h1, h2⟩ := List.cons.inj heq
      subst h1
      exact absurd hdd (by decide)
  simp only [build_positions, if_neg hstar]
  rw [digitRuns_render ts hnd]
  have hsplit : (splitSegs (cigarRender ts)).tail = ts.map (fun t => [t.2]) := by
    unfold splitSegs
    rw [splitSegsAux_render ts hnd []]
    rfl
  rw [hsplit]
  have hmm : (ts.map (fun t => natDigits t.1)).map digitsToNat = ts.map Prod.fst := by
    rw [List.map_map]
    refine List.map_congr_left ?_
    intro t ht
    simp only [Function.comp_apply]
    exact digitsToNat_natDigits t.1
  rw [hmm]
  exact buildLoop_sem ts h start

/-- C3 witness: the theorem instantiated at `start = 5` and the token list
`2M3N2M`. -/
theorem build_positions_semantics_witness :
    (∀ t ∈ [(2, 'M'), (3, 'N'), (2, 'M')], 1 ≤ t.1 ∧ t.2 ∈ allowedCigarCodes) ∧
    build_positions 5 (cigarRender [(2, 'M'), (3, 'N'), (2, 'M')]) [] =
      Except.ok (cigarSpecPositions 5 [(2, 'M'), (3, 'N'), (2, 'M')]) :=
  ⟨by decide,
    (build_positions_semantics 5 [(2, 'M'), (3, 'N'), (2, 'M')] [] (by decide)).1⟩

/-- C4, code-bug evidence.  A flags value with the supplementary bit
`0x800` set reaches the `elif` at Read.py line 258 and evaluates the
undefined name `count_supplementary_alignments` (the parameter is named
`count_supplementary_alignment`), so the classifier raises a `NameError`
under both the default policy and the skip-supplementary policy — the
repository's own tests (`test_Read.py`, keys
`count_supplementary_alignment` / `skip_supplementary_alignment`) expect
`(True, False)` and `(False, False)` instead.  Flags without `0x800`
behave as claimed, e.g. the unmapped case. -/
theorem parse_sam_bitwise_flag_supplementary_name_error :
    parse_sam_bitwise_flag 0x800 defaultFlagPolicy = Except.error PyErr.nameErr ∧
    parse_sam_bitwise_flag 0x800
      { defaultFlagPolicy with count_supplementary_alignment := false } =
      Except.error PyErr.nameErr ∧
    parse_sam_bitwise_flag 0x4 defaultFlagPolicy = Except.ok (false, false) := by
  exact ⟨rfl, rfl, rfl⟩

/-- C5, code-bug evidence.  `build_positions(1, "*", "*")` does not raise:
the `cigar == "*"` branch treats the placeholder sequence string `"*"` as
a length-1 sequence and returns `[1]`, while the repository's own test
(`test_Read.py`, `bad_cigar_string['unknown_length']`) and the spec demand
an error.  For every other sequence the branch behaves as specified:
a contiguous run of `len(seq)` positions starting at `start`. -/
theorem build_positions_star_star :
    build_positions 1 ['*'] ['*'] = Except.ok [1] ∧
    (∀ (start : Int) (seq : List Char),
      build_positions start ['*'] seq =
        Except.ok ((List.range seq.length).map (fun (i : Nat) => start + (i : Int)))) := by
  exact ⟨rfl, fun start seq => by simp [build_positions]⟩

/-- C9, code-bug evidence.  `Read.__init__` accepts `abundance = 0` (the
check at Read.py line 78 is `int(abundance) >= 0`) and constructs a read
with abundance `0`, although its own error message demands "a positive
integer" and the spec's invariant is `abundance ≥ 1`.  The `mappings`
check is as claimed: `0` is rejected. -/
theorem readInit_abundance_zero :
    readInit "chr1" "+" 0 (some 1) [10, 11] =
      Except.ok { chromosome := "chr1", strand := "+", position_array := [10, 11],
                  abundance := 0, mappings := 1, has_mappings := true } ∧
    readInit "chr1" "+" 1 (some 0) [10] = Except.error PyErr.metageneErr ∧
    readInit "chr1" "+" 1 (some (-2)) [10] = Except.error PyErr.metageneErr := by
  exact ⟨rfl, rfl, rfl⟩

/-- C6 counterexample.  The `+`-strand feature built from genomic
`start = 20`, `end = 40` with padding `(4, 2)` has a position array of
length 27 ending at 42 (namely `[16..42]`), not length 26 ending at 41 as
claimed. -/
theorem feature_position_array_claim_false :
    Except.map (fun f => (f.position_array.length, f.position_array.getLast?))
      (featureInit "all" ⟨10, 4, 2⟩ "first" "chr1" 20 40 "+" false) =
      Except.ok (27, some 42) ∧
    ¬((27 : Nat) = 26 ∧ (some (42 : Int)) = some 41) := by
  exact ⟨rfl, by decide⟩

/-- C6, amended.  The `+`-strand feature built with count-method `all`
from genomic `start = 20`, `end = 40` and padding `(4, 2)` has a strictly
increasing position array of length 27, first element 16, last element 42
(the padded span is `[start - 4, end + 2] = [16, 42]`, which contains
`(40 - 20 + 1) + 4 + 2 = 27` positions). -/
theorem feature_position_array_amended :
    Except.map (fun f => f.position_array)
      (featureInit "all" ⟨10, 4, 2⟩ "first" "chr1" 20 40 "+" false) =
      Except.ok (intRange 16 42) ∧
    intRange 16 42 = [16, 17, 18, 19, 20, 21, 22, 23, 24, 25, 26, 27, 28, 29,
      30, 31, 32, 33, 34, 35, 36, 37, 38, 39, 40, 41, 42] ∧
    (intRange 16 42).length = 27 ∧
    (intRange 16 42).head? = some 16 ∧
    (intRange 16 42).getLast? = some 42 ∧
    List.Pairwise (· < ·) (intRange 16 42) := by
  refine ⟨rfl, by decide, by decide, by decide, by decide, ?_⟩
  unfold intRange
  refine List.Pairwise.map _ (fun a b hab => ?_) (List.pairwise_lt_range _)
  omega

/-- Adding `w` to one in-range entry raises the list sum by `w`. -/
theorem sum_set_add (a : List ℚ) (i : Nat) (w : ℚ) (h : i < a.length) :
    (a.set i (a.getD i 0 + w)).sum = a.sum + w := by
  induction a generalizing i with
  | nil => simp at h
  | cons x xs ih =>
    cases i with
    | zero =>
      simp only [List.set_cons_zero, List.getD_cons_zero, List.sum_cons]
      ring
    | succ i =>
      simp only [List.set_cons_succ, List.getD_cons_succ, List.sum_cons]
      rw [ih i (by simp only [List.length_cons] at h; omega)]
      ring

/-- Accumulating a list of positions into a counts dictionary with the
single key `k` succeeds, preserves the key set and the array length, and
raises the bucket's sum by `w` for each accumulated position, i.e. for
each position present in `posArr`. -/
theorem accumulate_single (posArr : List Int) (k : String) (w : ℚ) :
    ∀ (ps : List Int) (a : List ℚ), posArr.length ≤ a.length →
    ∃ a2 : List ℚ, accumulatePositions posArr k w ps [(k, a)] = Except.ok [(k, a2)] ∧
      a2.length = a.length ∧
      a2.sum = a.sum + ((ps.filter (fun p => decide (p ∈ posArr))).length : ℚ) * w := by
  intro ps
  induction ps with
  | nil => intro a _; exact ⟨a, rfl, rfl, by simp⟩
  | cons p ps ih =>
    intro a ha
    by_cases hp : p ∈ posArr
    · have hidx : posArr.indexOf p < posArr.length := List.indexOf_lt_length.mpr hp
      have hupd : updateCounts [(k, a)] k (posArr.indexOf p) w =
          Except.ok [(k, a.set (posArr.indexOf p)
            (a.getD (posArr.indexOf p) 0 + w))] := by
        simp [updateCounts, lt_of_lt_of_le hidx ha]
      simp only [accumulatePositions, if_pos hp, hupd]
      obtain ⟨a2, h1, h2, h3⟩ := ih (a.set (posArr.indexOf p)
        (a.getD (posArr.indexOf p) 0 + w)) (by rw [List.length_set]; exact ha)
      refine ⟨a2, h1, by rw [h2, List.length_set], ?_⟩
      rw [h3, sum_set_add a (posArr.indexOf p) w (lt_of_lt_of_le hidx ha),
        List.filter_cons_of_pos (by simp [hp])]
      simp only [List.length_cons]
      push_cast
      ring
    · simp only [accumulatePositions, if_neg hp]
      obtain ⟨a2, h1, h2, h3⟩ := ih a ha
      refine ⟨a2, h1, h2, ?_⟩
      rw [h3, List.filter_cons_of_neg (by simp [hp])]

/-- C7.  An unstranded read (`strand = "."`) on a stranded feature is a
hard `MetageneError` (before any accumulation); the same read on an
unstranded feature succeeds, changes nothing but the single `unstranded`
counts bucket (an unstranded feature has no other bucket), and adds the
read's weight `abundance / mappings` to that bucket once for each counted
position lying in the feature window — at least one such position exists
(the read's first/last position is in the window by hypothesis), so the
bucket's total genuinely increases by a positive multiple of the weight. -/
theorem count_read_unstranded :
    (∀ (f : PyFeature) (r : PyRead) (m : String) (cg cp : Bool),
      (f.strand = "+" ∨ f.strand = "-") → r.strand = "." →
      count_read f r m cg cp = Except.error PyErr.metageneErr) ∧
    (∀ (f : PyFeature) (r : PyRead) (m : String) (cp : Bool) (a : List ℚ)
      (pf pl : Int),
      f.strand = "." → f.counts_array = [("unstranded:allreads", a)] →
      f.position_array.length ≤ a.length → r.strand = "." →
      r.position_array.head? = some pf → r.position_array.getLast? = some pl →
      pf ∈ f.position_array → pl ∈ f.position_array →
      f.chromosome = r.chromosome → (m = "start" ∨ m = "end" ∨ m = "all") →
      ∃ a2 : List ℚ,
        count_read f r m false cp =
          Except.ok { f with counts_array := [("unstranded:allreads", a2)] } ∧
        a2.length = a.length ∧
        a2.sum = a.sum +
          (((if m = "start" then [pf] else if m = "end" then [pl]
             else r.position_array).filter
              (fun p => decide (p ∈ f.position_array))).length : ℚ) *
            ((r.abundance : ℚ) / (r.mappings : ℚ)) ∧
        1 ≤ ((if m = "start" then [pf] else if m = "end" then [pl]
             else r.position_array).filter
              (fun p => decide (p ∈ f.position_array))).length) := by
  constructor
  · intro f r m cg cp hf hr
    have hfs : ¬(f.strand = ".") := by rcases hf with h | h <;> simp [h]
    have hrs : ¬(r.strand ≠ ".") := by simp [hr]
    simp only [count_read, if_neg hfs, if_neg hrs]
  · intro f r m cp a pf pl hfs hca hlen hrs hpf hpl hin1 hin2 hch hm
    have hstr : "unstranded" ++ ":allreads" = "unstranded:allreads" := rfl
    have hb : (decide (pf ∈ f.position_array) && decide (pl ∈ f.position_array)) = true := by
      simp [hin1, hin2]
    have hmem : pf ∈ r.position_array := by
      cases hl : r.position_array with
      | nil => rw [hl] at hpf; simp at hpf
      | cons x xs =>
        rw [hl] at hpf
        simp only [List.head?_cons, Option.some.injEq] at hpf
        rw [← hpf]
        exact List.mem_cons_self x xs
    have hw := accumulate_single f.position_array "unstranded:allreads"
      ((r.abundance : ℚ) / (r.mappings : ℚ))
    rcases cp with _ | _
    · -- count_partial_reads = False: the containment check runs and passes
      simp only [count_read, if_pos hfs, hpf, hpl, hstr, hca, hb,
        Bool.false_eq_true, if_false]
      rw [if_pos hch]
      rcases hm with rfl | rfl | rfl
      · obtain ⟨a2, hacc, hl2, hsum⟩ := hw [pf] a hlen
        simp only [eq_self_iff_true, if_true, hacc]
        exact ⟨a2, rfl, hl2, hsum, by simp [hin1]⟩
      · obtain ⟨a2, hacc, hl2, hsum⟩ := hw [pl] a hlen
        simp only [if_neg (by decide : ¬("end" : String) = "start"),
          eq_self_iff_true, if_true, hacc]
        exact ⟨a2, rfl, hl2, hsum, by simp [hin2]⟩
      · obtain ⟨a2, hacc, hl2, hsum⟩ := hw r.position_array a hlen
        simp only [if_neg (by decide : ¬("all" : String) = "start"),
          if_neg (by decide : ¬("all" : String) = "end"),
          eq_self_iff_true, if_true, hacc]
        refine ⟨a2, rfl, hl2, hsum, ?_⟩
        have hmf : pf ∈ r.position_array.filter (fun p => decide (p ∈ f.position_array)) :=
          List.mem_filter.mpr ⟨hmem, by simp [hin1]⟩
        exact List.length_pos.mpr (List.ne_nil_of_mem hmf)
    · -- count_partial_reads = True: no containment check
      simp only [count_read, if_pos hfs, hpf, hpl, hstr, hca,
        Bool.false_eq_true, if_false, eq_self_iff_true, if_true]
      rw [if_pos hch]
      rcases hm with rfl | rfl | rfl
      · obtain ⟨a2, hacc, hl2, hsum⟩ := hw [pf] a hlen
        simp only [eq_self_iff_true, if_true, hacc]
        exact ⟨a2, rfl, hl2, hsum, by simp [hin1]⟩
      · obtain ⟨a2, hacc, hl2, hsum⟩ := hw [pl] a hlen
        simp only [if_neg (by decide : ¬("end" : String) = "start"),
          eq_self_iff_true, if_true, hacc]
        exact ⟨a2, rfl, hl2, hsum, by simp [hin2]⟩
      · obtain ⟨a2, hacc, hl2, hsum⟩ := hw r.position_array a hlen
        simp only [if_neg (by decide : ¬("all" : String) = "start"),
          if_neg (by decide : ¬("all" : String) = "end"),
          eq_self_iff_true, if_true, hacc]
        refine ⟨a2, rfl, hl2, hsum, ?_⟩
        have hmf : pf ∈ r.position_array.filter (fun p => decide (p ∈ f.position_array)) :=
          List.mem_filter.mpr ⟨hmem, by simp [hin1]⟩
        exact List.length_pos.mpr (List.ne_nil_of_mem hmf)

/-- C7 witness: part 1 at a `+`-strand feature with an unstranded read;
part 2 at an unstranded feature with an unstranded single-position read of
weight `2 / 1`: the unstranded bucket `[0, 0, 0]` gains exactly that
weight (its sum becomes 2), everything else is unchanged. -/
theorem count_read_unstranded_witness :
    (("+" : String) = "+" ∨ ("+" : String) = "-") ∧
    (("." : String) = ".") ∧
    count_read
      { name := "first", chromosome := "chr1", strand := "+", feature_interval := 3,
        padding_up := 0, padding_down := 0, metagene_length := 3,
        counts_array := [("sense:allreads", [0, 0, 0]), ("antisense:allreads", [0, 0, 0])],
        position_array := [20, 21, 22] }
      { chromosome := "chr1", strand := ".", position_array := [20, 21],
        abundance := 10, mappings := 1, has_mappings := true }
      "all" false false = Except.error PyErr.metageneErr ∧
    ((5 : Int) ∈ ([5, 6, 7] : List Int)) ∧
    (("all" : String) = "start" ∨ ("all" : String) = "end" ∨ ("all" : String) = "all") ∧
    (∃ a2 : List ℚ, count_read
      { name := "u", chromosome := "chr1", strand := ".", feature_interval := 3,
        padding_up := 0, padding_down := 0, metagene_length := 3,
        counts_array := [("unstranded:allreads", [0, 0, 0])],
        position_array := [5, 6, 7] }
      { chromosome := "chr1", strand := ".", position_array := [5],
        abundance := 2, mappings := 1, has_mappings := true }
      "all" false false =
        Except.ok
          { name := "u", chromosome := "chr1", strand := ".", feature_interval := 3,
            padding_up := 0, padding_down := 0, metagene_length := 3,
            counts_array := [("unstranded:allreads", a2)],
            position_array := [5, 6, 7] } ∧
      a2.length = 3 ∧
      a2.sum = 2) := by
  refine ⟨Or.inl rfl, rfl,
    count_read_unstranded.1 _ _ "all" false false (Or.inl rfl) rfl,
    by decide, Or.inr (Or.inr rfl), ?_⟩
  obtain ⟨a2, h1, h2, h3, h4⟩ := count_read_unstranded.2
    { name := "u", chromosome := "chr1", strand := ".", feature_interval := 3,
      padding_up := 0, padding_down := 0, metagene_length := 3,
      counts_array := [("unstranded:allreads", [0, 0, 0])],
      position_array := [5, 6, 7] }
    { chromosome := "chr1", strand := ".", position_array := [5],
      abundance := 2, mappings := 1, has_mappings := true }
    "all" false [0, 0, 0] 5 5 rfl rfl (by decide) rfl rfl rfl
    (by decide) (by decide) rfl (Or.inr (Or.inr rfl))
  refine ⟨a2, h1, h2, ?_⟩
  rw [if_neg (by decide : ¬("all" : String) = "start"),
    if_neg (by decide : ¬("all" : String) = "end")] at h3
  simp at h3
  convert h3 using 1

/-- C8 counterexample.  An unstranded read whose positions lie entirely
outside the feature window, counted with `count_partial_reads = False`
against a stranded feature, raises `MetageneError` instead of silently
skipping: the orientation check at Feature.py lines 402-411 runs before
the containment check at lines 423-428. -/
theorem count_read_skip_claim_false :
    Except.bind (featureInit "all" ⟨10, 4, 2⟩ "first" "chr1" 20 40 "+" false)
      (fun f => count_read f
        { chromosome := "chr1", strand := ".", position_array := [100, 101],
          abundance := 10, mappings := 1, has_mappings := true } "all" false false) =
      Except.error PyErr.metageneErr ∧
    Except.map (fun f => decide ((100 : Int) ∈ f.position_array))
      (featureInit "all" ⟨10, 4, 2⟩ "first" "chr1" 20 40 "+" false) =
      Except.ok false := by
  exact ⟨rfl, rfl⟩

/-- C8, amended.  For every feature and read whose orientation is
determinable (stranded read or unstranded feature) and whose position
array is non-empty, if `count_partial_reads` is false and the read's first
or last position is absent from `feature.position_array`, then
`count_read` returns without raising and leaves the feature — hence every
entry of every counts bucket — unchanged. -/
theorem count_read_skip_amended (f : PyFeature) (r : PyRead) (m : String)
    (cg : Bool) (pf pl : Int)
    (hor : r.strand ≠ "." ∨ f.strand = ".")
    (hpf : r.position_array.head? = some pf)
    (hpl : r.position_array.getLast? = some pl)
    (habs : pf ∉ f.position_array ∨ pl ∉ f.position_array) :
    count_read f r m cg false = Except.ok f := by
  have hb : (decide (pf ∈ f.position_array) && decide (pl ∈ f.position_array)) = false := by
    rcases habs with h | h <;> simp [h]
  rcases cg with _ | _ <;> by_cases hfs : f.strand = "."
  · simp only [count_read, if_pos hfs, hpf, hpl, hb, Bool.false_eq_true, if_false]
  · have hr : r.strand ≠ "." := by
      rcases hor with h | h
      · exact h
      · exact absurd h hfs
    simp only [count_read, if_neg hfs, if_pos hr, hpf, hpl, hb,
      Bool.false_eq_true, if_false]
  · simp only [count_read, if_pos hfs, hpf, hpl, hb, Bool.false_eq_true, if_false,
      eq_self_iff_true, if_true]
  · have hr : r.strand ≠ "." := by
      rcases hor with h | h
      · exact h
      · exact absurd h hfs
    simp only [count_read, if_neg hfs, if_pos hr, hpf, hpl, hb,
      Bool.false_eq_true, if_false, eq_self_iff_true, if_true]

/-- C8 witness for the amended claim: a stranded read entirely left of the
feature window is skipped without error and without mutation. -/
theorem count_read_skip_amended_witness :
    (("+" : String) ≠ "." ∨ ("+" : String) = ".") ∧
    (([100, 101] : List Int).head? = some 100) ∧
    (([100, 101] : List Int).getLast? = some 101) ∧
    ((100 : Int) ∉ ([20, 21, 22] : List Int) ∨ (101 : Int) ∉ ([20, 21, 22] : List Int)) ∧
    count_read
      { name := "first", chromosome := "chr1", strand := "+", feature_interval := 3,
        padding_up := 0, padding_down := 0, metagene_length := 3,
        counts_array := [("sense:allreads", [0, 0, 0]), ("antisense:allreads", [0, 0, 0])],
        position_array := [20, 21, 22] }
      { chromosome := "chr1", strand := "+", position_array := [100, 101],
        abundance := 3, mappings := 1, has_mappings := true }
      "all" false false =
      Except.ok
        { name := "first", chromosome := "chr1", strand := "+", feature_interval := 3,
          padding_up := 0, padding_down := 0, metagene_length := 3,
          counts_array := [("sense:allreads", [0, 0, 0]), ("antisense:allreads", [0, 0, 0])],
          position_array := [20, 21, 22] } :=
  ⟨Or.inl (by decide), rfl, rfl, Or.inl (by decide),
    count_read_skip_amended _ _ "all" false 100 101 (Or.inl (by decide)) rfl rfl
      (Or.inl (by decide))⟩

/-- C10.  When the orientation is determinable and the containment check
passes, an unrecognized `count_method` is silently accepted (no
accumulation, normal return) for a read on a different chromosome, and
raises the "unrecognizable counting method" `MetageneError` exactly when
the chromosomes match: the validation happens only inside the
chromosome-match branch (Feature.py lines 430-447). -/
theorem count_read_method_iff_chromosome (f : PyFeature) (r : PyRead)
    (m : String) (cg cp : Bool) (pf pl : Int)
    (hm1 : m ≠ "start") (hm2 : m ≠ "end") (hm3 : m ≠ "all")
    (hor : r.strand ≠ "." ∨ f.strand = ".")
    (hpf : r.position_array.head? = some pf)
    (hpl : r.position_array.getLast? = some pl)
    (hin : pf ∈ f.position_array ∧ pl ∈ f.position_array) :
    (f.chromosome ≠ r.chromosome → count_read f r m cg cp = Except.ok f) ∧
    (f.chromosome = r.chromosome →
      count_read f r m cg cp = Except.error PyErr.metageneErr) := by
  have hb : (decide (pf ∈ f.position_array) && decide (pl ∈ f.position_array)) = true := by
    simp [hin.1, hin.2]
  refine ⟨fun hch => ?_, fun hch => ?_⟩ <;>
    rcases cg with _ | _ <;> rcases cp with _ | _ <;>
    (by_cases hfs : f.strand = "."
     · simp only [count_read, if_pos hfs, hpf, hpl, hb, Bool.false_eq_true, if_false,
         eq_self_iff_true, if_true, if_neg hm1, if_neg hm2, if_neg hm3]
       first
         | rw [if_neg hch]
         | rw [if_pos hch]
     · have hr : r.strand ≠ "." := by
         rcases hor with h | h
         · exact h
         · exact absurd h hfs
       simp only [count_read, if_neg hfs, if_pos hr, hpf, hpl, hb,
         Bool.false_eq_true, if_false, eq_self_iff_true, if_true,
         if_neg hm1, if_neg hm2, if_neg hm3]
       first
         | rw [if_neg hch]
         | rw [if_pos hch])

/-- C10 witness: the same call with an unrecognized method `"bogus"`
returns silently on a chromosome mismatch and raises on a match. -/
theorem count_read_method_iff_chromosome_witness :
    ("bogus" : String) ≠ "start" ∧ ("bogus" : String) ≠ "end" ∧
    ("bogus" : String) ≠ "all" ∧
    ((20 : Int) ∈ ([20, 21, 22] : List Int) ∧ (21 : Int) ∈ ([20, 21, 22] : List Int)) ∧
    count_read
      { name := "first", chromosome := "chr9", strand := "+", feature_interval := 3,
        padding_up := 0, padding_down := 0, metagene_length := 3,
        counts_array := [("sense:allreads", [0, 0, 0]), ("antisense:allreads", [0, 0, 0])],
        position_array := [20, 21, 22] }
      { chromosome := "chr1", strand := "+", position_array := [20, 21],
        abundance := 3, mappings := 1, has_mappings := true }
      "bogus" false false =
      Except.ok
        { name := "first", chromosome := "chr9", strand := "+", feature_interval := 3,
          padding_up := 0, padding_down := 0, metagene_length := 3,
          counts_array := [("sense:allreads", [0, 0, 0]), ("antisense:allreads", [0, 0, 0])],
          position_array := [20, 21, 22] } ∧
    count_read
      { name := "first", chromosome := "chr1", strand := "+", feature_interval := 3,
        padding_up := 0, padding_down := 0, metagene_length := 3,
        counts_array := [("sense:allreads", [0, 0, 0]), ("antisense:allreads", [0, 0, 0])],
        position_array := [20, 21, 22] }
      { chromosome := "chr1", strand := "+", position_array := [20, 21],
        abundance := 3, mappings := 1, has_mappings := true }
      "bogus" false false = Except.error PyErr.metageneErr :=
  ⟨by decide, by decide, by decide, ⟨by decide, by decide⟩,
    (count_read_method_iff_chromosome
      { name := "first", chromosome := "chr9", strand := "+", feature_interval := 3,
        padding_up := 0, padding_down := 0, metagene_length := 3,
        counts_array := [("sense:allreads", [0, 0, 0]), ("antisense:allreads", [0, 0, 0])],
        position_array := [20, 21, 22] }
      { chromosome := "chr1", strand := "+", position_array := [20, 21],
        abundance := 3, mappings := 1, has_mappings := true }
      "bogus" false false 20 21
      (by decide) (by decide) (by decide) (Or.inl (by decide)) rfl rfl
      ⟨by decide, by decide⟩).1 (by decide),
    (count_read_method_iff_chromosome
      { name := "first", chromosome := "chr1", strand := "+", feature_interval := 3,
        padding_up := 0, padding_down := 0, metagene_length := 3,
        counts_array := [("sense:allreads", [0, 0, 0]), ("antisense:allreads", [0, 0, 0])],
        position_array := [20, 21, 22] }
      { chromosome := "chr1", strand := "+", position_array := [20, 21],
        abundance := 3, mappings := 1, has_mappings := true }
      "bogus" false false 20 21
      (by decide) (by decide) (by decide) (Or.inl (by decide)) rfl rfl
      ⟨by decide, by decide⟩).2 rfl⟩

/-- C2.  The resampler's documented golden outputs (Tester_Feature.py
lines 210-211): expansion of `[16, 8, 24, 4]` to 8 bins (shrink factor
`0.5`) and contraction of `[6, 8, 6, 2, 4, 4, 2, 4, 24, 8]` to 4 bins
(shrink factor `2.5`); all arithmetic is exact at these inputs. -/
theorem adjust_to_metagene_golden :
    adjust_to_metagene 8 [16, 8, 24, 4] = [8, 8, 4, 4, 12, 12, 2, 2] ∧
    adjust_to_metagene 4 [6, 8, 6, 2, 4, 4, 2, 4, 24, 8] = [17, 9, 8, 34] := by
  constructor
  · norm_num [adjust_to_metagene, adjustLoop]
  · norm_num [adjust_to_metagene, adjustLoop]
